import Mathlib

/-!
Autocomplete search (`autocomplete-search/src/main.js`)

A shallow embedding of the state-reduction engine of the autocomplete example:
the modification functions built by `modifications`, the fold performed by `model`,
the event filter `preventedEvents`, the response correlator
`networking.processResponses` and the two windowing operators `between` and
`notBetween`.

Conventions of the embedding.

* JavaScript `null` is `none`; a JavaScript number that is used as an index is a
  `JSNum`, either an integer or `NaN` (what `parseInt` returns, and the only
  non-integer value that `+`, `%` and `Math.min` produce from integers, through `% 0`).
* Integer arithmetic is exact: the indices of a suggestion list are far below `2^53`.
* The result of an array read `xs[i]` is a `JSVal`: a string, or `undefined` when the
  index is not an index of the array.
* A hot stream is a finite trace of occurrences (a list, oldest first); every stream
  function maps the trace of its inputs to the list of values it has emitted.
-/

namespace Autocomplete

/-! ## JavaScript values -/

/-- A JavaScript number as the program uses it: an integer, or `NaN`. -/
inductive JSNum where
  | int (z : Int)
  | nan
  deriving DecidableEq, Repr

/-- The value of an array read: a string element or `undefined`. -/
inductive JSVal where
  | undefined
  | str (s : String)
  deriving DecidableEq, Repr

/-- JavaScript `a + b` on numbers. -/
def jsAdd : JSNum → JSNum → JSNum
  | .int a, .int b => .int (a + b)
  | _, _ => .nan

/-- JavaScript `a % b` on numbers: the remainder takes the sign of the dividend, and
a zero divisor gives `NaN`. The result `-0` is identified with `0`, to which it is
`===` and which it equals as an array index. -/
def jsMod : JSNum → JSNum → JSNum
  | .int a, .int b => if b = 0 then .nan else .int (Int.tmod a b)
  | _, _ => .nan

/-- JavaScript `Math.min(a, b)` on numbers. -/
def jsMin : JSNum → JSNum → JSNum
  | .int a, .int b => .int (min a b)
  | _, _ => .nan

/-- JavaScript `xs[i]` for an array of strings, where `i` is `null` or a number: the
element at `i` when `i` is an index of the array, `undefined` otherwise. -/
def jsIndex (xs : List String) : Option JSNum → JSVal
  | some (.int z) =>
    if 0 ≤ z then
      match xs.get? z.toNat with
      | some s => .str s
      | none => .undefined
    else .undefined
  | some .nan => .undefined
  | none => .undefined

/-! ## State -/

/-- The `Immutable.Map` with the keys `suggestions`, `highlighted` and `selected`. -/
structure State where
  suggestions : List String
  highlighted : Option JSNum
  selected : Option JSVal
  deriving DecidableEq, Repr

/-- The map built in `model` from a suggestion list:
`{suggestions, highlighted: null, selected: null}`. -/
def freshState (suggestions : List String) : State :=
  { suggestions := suggestions, highlighted := none, selected := none }

/-! ## Modifications (`modifications`) -/

/-- The local function `wrapAround` of `moveHighlightMod$`:
`x => (x + suggestions.length) % suggestions.length`. -/
def wrapAround (suggestions : List String) (x : JSNum) : JSNum :=
  jsMod (jsAdd x (.int suggestions.length)) (.int suggestions.length)

/-- The function that `moveHighlightMod$` builds from `delta`. -/
def moveHighlightMod (delta : Int) (state : State) : State :=
  let suggestions := state.suggestions
  { state with
    highlighted :=
      match state.highlighted with
      | none => some (wrapAround suggestions (jsMin (.int delta) (.int 0)))
      | some highlighted => some (wrapAround suggestions (jsAdd highlighted (.int delta))) }

/-- The function that `setHighlightMod$` builds from `highlighted`. -/
def setHighlightMod (highlighted : JSNum) (state : State) : State :=
  { state with highlighted := some highlighted }

/-- The function that `selectHighlightedMod$` builds from `selected`. -/
def selectHighlightedMod (selected : Bool) (state : State) : State :=
  let suggestions := state.suggestions
  let highlighted := state.highlighted
  let hasHighlight := highlighted != none
  let isMenuEmpty := suggestions.length == 0
  if selected && hasHighlight && !isMenuEmpty then
    { state with selected := some (jsIndex suggestions highlighted), suggestions := [] }
  else
    { state with selected := none }

/-- The function that `hideMod$` builds. -/
def hideMod (state : State) : State :=
  { state with suggestions := [] }

/-- A modification function, as a value: one constructor for each of the four streams
that `modifications` merges, carrying what the function closes over. -/
inductive Mod where
  | moveHighlight (delta : Int)
  | setHighlight (highlighted : JSNum)
  | selectHighlighted (selected : Bool)
  | hide
  deriving DecidableEq, Repr

/-- Calling a modification function on a state: `mod(acc)`. -/
def Mod.apply : Mod → State → State
  | .moveHighlight delta => moveHighlightMod delta
  | .setHighlight highlighted => setHighlightMod highlighted
  | .selectHighlighted selected => selectHighlightedMod selected
  | .hide => hideMod

/-- An occurrence on one of the action streams that `modifications` reads. -/
inductive Action where
  | moveHighlight (delta : Int)
  | setHighlight (highlighted : JSNum)
  | selectHighlighted
  | quitAutocomplete
  deriving DecidableEq, Repr

/-- The modification functions that one action occurrence puts on the merged stream:
one for `moveHighlight$`, `setHighlight$` and `quitAutocomplete$`, and the two of
`Rx.Observable.from([true, false])` for `selectHighlighted$`. -/
def modificationsOf : Action → List Mod
  | .moveHighlight delta => [.moveHighlight delta]
  | .setHighlight highlighted => [.setHighlight highlighted]
  | .selectHighlighted => [.selectHighlighted true, .selectHighlighted false]
  | .quitAutocomplete => [.hide]

/-- The merged stream of `modifications(actions)` for a trace of action occurrences. -/
def modifications (actions : List Action) : List Mod :=
  actions.flatMap modificationsOf

/-! ## The state stream (`model`) -/

/-- An occurrence on one of the inputs of the state stream. -/
inductive ModelEv where
  | wantsSuggestions (accepted : Bool)
  | suggestionsFromResponse (suggestions : List String)
  | mod (m : Mod)
  deriving DecidableEq, Repr

/-- The snapshots that `state$` emits for a trace, given the latest value of
`wantsSuggestions$` (if any) and the accumulator of the running `scan`.

* `withLatestFrom` emits for a suggestion list only once `wantsSuggestions$` has a
  value, and then emits `accepted ? suggestions : []`;
* `flatMapLatest` drops the running `scan` and starts one from the fresh map, which
  `startWith` makes the first value emitted;
* `scan` emits `mod(acc)` for each modification function. -/
def modelFrom (latest : Option Bool) (acc : State) : List ModelEv → List State
  | [] => []
  | .wantsSuggestions accepted :: evs => modelFrom (some accepted) acc evs
  | .suggestionsFromResponse suggestions :: evs =>
    match latest with
    | none => modelFrom none acc evs
    | some accepted =>
      let state := freshState (if accepted then suggestions else [])
      state :: modelFrom latest state evs
  | .mod m :: evs =>
    let state := m.apply acc
    state :: modelFrom latest state evs

/-- The snapshots emitted by `model(suggestionsFromResponse$, actions)`, oldest first;
the first one comes from `startWith([])`. -/
def model (evs : List ModelEv) : List State :=
  freshState [] :: modelFrom none (freshState []) evs

/-! ## Suppressed events (`preventedEvents`) -/

/-- An occurrence on one of the two inputs of `preventedEvents`: an event of
`keepFocusOnInput$`, or a snapshot of `state$`. Events are objects of type `ε`. -/
inductive PreventEv (ε : Type) where
  | keepFocusOnInput (event : ε)
  | state (s : State)

/-- The function given to `withLatestFrom` in `preventedEvents`; `none` is `null`. -/
def preventedSelector {ε : Type} (event : ε) (state : State) : Option ε :=
  if state.suggestions.length > 0 && state.highlighted != none then some event else none

/-- The events emitted by `preventedEvents`, given the latest snapshot (if any):
`withLatestFrom` emits nothing before the first snapshot, and `filter` keeps the
results that are not `null`. -/
def preventedEventsFrom {ε : Type} (latest : Option State) : List (PreventEv ε) → List ε
  | [] => []
  | .state s :: evs => preventedEventsFrom (some s) evs
  | .keepFocusOnInput event :: evs =>
    match latest with
    | none => preventedEventsFrom none evs
    | some state =>
      match preventedSelector event state with
      | some ev => ev :: preventedEventsFrom latest evs
      | none => preventedEventsFrom latest evs

/-- The events emitted by `preventedEvents(actions, state$)`, oldest first. -/
def preventedEvents {ε : Type} (evs : List (PreventEv ε)) : List ε :=
  preventedEventsFrom none evs

/-! ## Responses (`networking.processResponses`) -/

/-- The constant `BASE_URL`. -/
def BASE_URL : String :=
  "https://en.wikipedia.org/w/api.php?action=opensearch&format=json&search="

/-- JavaScript `s.indexOf(t) === 0`: `t` occurs in `s` at position 0. -/
def indexOfIsZero (s t : String) : Bool :=
  t.data.isPrefixOf s.data

/-- An occurrence on the `JSONP` source: the source emits a response stream `res$`
(identified by `id`) whose `request` property is `request`, or the response stream
`id` emits the payload `res`, a JavaScript array. -/
inductive JsonpEv (β : Type) where
  | stream (id : Nat) (request : String)
  | response (id : Nat) (res : List β)

/-- The operator `.filter(res$ => res$.request.indexOf(BASE_URL) === 0)`: a response
stream that fails the test is not passed on. -/
def filterStreams {β : Type} : List (JsonpEv β) → List (JsonpEv β)
  | [] => []
  | .stream id request :: evs =>
    if indexOfIsZero request BASE_URL then .stream id request :: filterStreams evs
    else filterStreams evs
  | .response id res :: evs => .response id res :: filterStreams evs

/-- The operator `.switch()`: only what the response stream received last emits is
passed on. `current` is the stream subscribed to, if any. -/
def switchFrom {β : Type} (current : Option Nat) : List (JsonpEv β) → List (List β)
  | [] => []
  | .stream id _ :: evs => switchFrom (some id) evs
  | .response id res :: evs =>
    if current = some id then res :: switchFrom current evs else switchFrom current evs

/-- The values emitted by `networking.processResponses(JSONP)`, oldest first;
`res[1]` is `none` when the payload has no second element (`undefined`). -/
def processResponses {β : Type} (evs : List (JsonpEv β)) : List (Option β) :=
  (switchFrom none (filterStreams evs)).map (fun res => res.get? 1)

/-! ## Windowing (`between`, `notBetween`) -/

/-- An occurrence on the source stream (`this`) or on one of the two marker streams
`first` and `second`. -/
inductive WinEv (α : Type) where
  | source (a : α)
  | first
  | second

/-- What `this.window(first, () => second)` does: it emits a new window, pushes a value
into a window, or completes a window. Windows are numbered in the order they open. -/
inductive WindowEv (α : Type) where
  | opened (id : Nat)
  | item (id : Nat) (a : α)
  | closed (id : Nat)

/-- The operator `this.window(first, () => second)`: every `first` opens a window, a
source value goes to every open window, and a window completes at the first `second`
after it opened. `openIds` are the open windows, oldest first. -/
def windowFrom {α : Type} (nextId : Nat) (openIds : List Nat) :
    List (WinEv α) → List (WindowEv α)
  | [] => []
  | .first :: evs => .opened nextId :: windowFrom (nextId + 1) (openIds ++ [nextId]) evs
  | .second :: evs => openIds.map .closed ++ windowFrom nextId [] evs
  | .source a :: evs => openIds.map (fun id => .item id a) ++ windowFrom nextId openIds evs

/-- The operator `.switch()` on a stream of windows: the values of the window emitted
last are passed on. -/
def switchWindows {α : Type} (current : Option Nat) : List (WindowEv α) → List α
  | [] => []
  | .opened id :: evs => switchWindows (some id) evs
  | .item id a :: evs =>
    if current = some id then a :: switchWindows current evs else switchWindows current evs
  | .closed id :: evs =>
    if current = some id then switchWindows none evs else switchWindows current evs

/-- The values emitted by `this.between(first, second)`, oldest first. -/
def between {α : Type} (evs : List (WinEv α)) : List α :=
  switchWindows none (windowFrom 0 [] evs)

/-- One occurrence through `this.takeUntil(first)`: the new state (`true` once `first`
has emitted) and the values emitted. -/
def takeUntilStep {α : Type} (stopped : Bool) : WinEv α → Bool × List α
  | .source a => (stopped, if stopped then [] else [a])
  | .first => (true, [])
  | .second => (stopped, [])

/-- One occurrence through `first.flatMapLatest(() => this.skipUntil(second))`. The
state is `none` before the first `first`; after it, `some isOpen` for the `skipUntil`
subscribed last, where `isOpen` becomes true when `second` emits. -/
def skipLatestStep {α : Type} (inner : Option Bool) : WinEv α → Option Bool × List α
  | .source a => (inner, if inner = some true then [a] else [])
  | .first => (some false, [])
  | .second => (inner.map (fun _ => true), [])

/-- The values emitted by the `Rx.Observable.merge` of the two streams, given their
states: on each occurrence, what the first emits, then what the second emits. -/
def notBetweenFrom {α : Type} (stopped : Bool) (inner : Option Bool) :
    List (WinEv α) → List α
  | [] => []
  | ev :: evs =>
    (takeUntilStep stopped ev).2 ++ (skipLatestStep inner ev).2 ++
      notBetweenFrom (takeUntilStep stopped ev).1 (skipLatestStep inner ev).1 evs

/-- The values emitted by `this.notBetween(first, second)`, oldest first. -/
def notBetween {α : Type} (evs : List (WinEv α)) : List α :=
  notBetweenFrom false none evs

/-! ## Definitions used to state the properties -/

/-- The invariant on `highlighted`: it is `null` or an index of `suggestions`. -/
def HighlightedInRange (s : State) : Prop :=
  s.highlighted = none
    ∨ ∃ i : Int, s.highlighted = some (.int i) ∧ 0 ≤ i ∧ i < s.suggestions.length

/-- What the intent layer puts into a modification, relative to the state the
modification is applied to: `moveHighlight$` carries `-1` or `+1` (the key codes 38
and 40), and `setHighlight$` carries the `data-index` of a rendered item, an index of
the current `suggestions`. -/
def Mod.admissible (s : State) : Mod → Bool
  | .moveHighlight delta => delta == 1 || delta == -1
  | .setHighlight (.int i) => decide (0 ≤ i) && decide (i < s.suggestions.length)
  | .setHighlight .nan => false
  | .selectHighlighted _ => true
  | .hide => true

/-- Every modification of the trace is admissible for the state it is applied to; the
states are those of `modelFrom`. -/
def admissibleFrom (latest : Option Bool) (acc : State) : List ModelEv → Bool
  | [] => true
  | .wantsSuggestions accepted :: evs => admissibleFrom (some accepted) acc evs
  | .suggestionsFromResponse suggestions :: evs =>
    match latest with
    | none => admissibleFrom none acc evs
    | some accepted =>
      admissibleFrom latest (freshState (if accepted then suggestions else [])) evs
  | .mod m :: evs => m.admissible acc && admissibleFrom latest (m.apply acc) evs

/-- Every modification of the trace is admissible, from the start of `model`. -/
def admissible (evs : List ModelEv) : Bool :=
  admissibleFrom none (freshState []) evs

/-- The states of a `scan` over modification functions, after the seed:
`mod(acc)` for each one, in order. -/
def scanFrom (acc : State) : List Mod → List State
  | [] => []
  | m :: ms => m.apply acc :: scanFrom (m.apply acc) ms

/-- The modification functions of a trace, in arrival order. -/
def modsOf : List ModelEv → List Mod
  | [] => []
  | .mod m :: evs => m :: modsOf evs
  | _ :: evs => modsOf evs

/-- An element of a response payload `[echoedQuery, items]`: a string or an array of
strings. -/
inductive BodyElem where
  | text (s : String)
  | list (xs : List String)
  deriving DecidableEq, Repr

/-- The response stream that `switch` is subscribed to after a trace of `JSONP`: the
one received last among those that pass the filter, or `current` if there is none. -/
def latestStream {β : Type} (current : Option Nat) : List (JsonpEv β) → Option Nat
  | [] => current
  | .stream id request :: evs =>
    if indexOfIsZero request BASE_URL then latestStream (some id) evs
    else latestStream current evs
  | .response _ _ :: evs => latestStream current evs

/-- The string `url` starts with the string `base`: it is `base` followed by some
string. This is the wording of the specification, stated without the test of the code. -/
def StartsWith (url base : String) : Prop :=
  ∃ rest : String, url = base ++ rest

/-- The response stream `id` belongs to the most recently issued request whose URL
starts with `BASE_URL`: the trace has a request `id` with such a URL, and no request
with such a URL after it. -/
def IsLatestRequest {β : Type} (pre : List (JsonpEv β)) (id : Nat) : Prop :=
  ∃ (p1 : List (JsonpEv β)) (request : String) (p2 : List (JsonpEv β)),
    pre = p1 ++ (.stream id request :: p2)
    ∧ StartsWith request BASE_URL
    ∧ ∀ id' request', JsonpEv.stream id' request' ∈ p2 → ¬ StartsWith request' BASE_URL

/-- The windowing semantics of the specification: some `first` precedes the end of
the trace with no `second` after it. -/
def InWindow {α : Type} (pre : List (WinEv α)) : Prop :=
  ∃ p1 p2 : List (WinEv α), pre = p1 ++ (.first :: p2) ∧ ∀ ev ∈ p2, ev ≠ .second

/-- Whether the marker that occurred last is a `first`, starting from `b`. -/
def inWindowFrom {α : Type} (b : Bool) : List (WinEv α) → Bool
  | [] => b
  | .source _ :: evs => inWindowFrom b evs
  | .first :: evs => inWindowFrom true evs
  | .second :: evs => inWindowFrom false evs

/-- Whether the window that `switch` is subscribed to is one of the open windows. -/
def currentOpen (current : Option Nat) (openIds : List Nat) : Bool :=
  match current with
  | some c => openIds.contains c
  | none => false

/-! ## Lemmas on the modifications -/

theorem wrapAround_int (suggestions : List String) (x : Int) (hne : suggestions ≠ [])
    (hx : 0 ≤ x + suggestions.length) :
    wrapAround suggestions (.int x) = .int (x % (suggestions.length : Int)) := by
  have hpos : 0 < suggestions.length := List.length_pos.mpr hne
  have hn0 : (suggestions.length : Int) ≠ 0 := by omega
  simp only [wrapAround, jsAdd, jsMod, if_neg hn0]
  rw [Int.tmod_eq_emod hx (by omega), Int.add_emod_self]

theorem wrapAround_nil (x : JSNum) : wrapAround [] x = .nan := by
  cases x <;> simp [wrapAround, jsAdd, jsMod]

theorem moveHighlightMod_of_none (s : State) (delta : Int) (hne : s.suggestions ≠ [])
    (hdelta : delta = 1 ∨ delta = -1) (hnone : s.highlighted = none) :
    (moveHighlightMod delta s).highlighted
      = some (.int (if delta = 1 then 0 else (s.suggestions.length : Int) - 1)) := by
  have hpos : 0 < s.suggestions.length := List.length_pos.mpr hne
  rcases hdelta with rfl | rfl
  · simp only [moveHighlightMod, hnone, jsMin]
    rw [wrapAround_int _ _ hne (by omega)]
    simp
  · simp only [moveHighlightMod, hnone, jsMin]
    rw [wrapAround_int _ _ hne (by omega)]
    have h1 : (min (-1 : Int) 0) = -1 := by decide
    rw [h1, ← Int.add_emod_self, Int.emod_eq_of_lt (by omega) (by omega)]
    simp
    omega

theorem moveHighlightMod_of_index (s : State) (delta h : Int) (hne : s.suggestions ≠ [])
    (hdelta : delta = 1 ∨ delta = -1) (hh : s.highlighted = some (.int h)) (h0 : 0 ≤ h) :
    (moveHighlightMod delta s).highlighted
      = some (.int ((h + delta) % (s.suggestions.length : Int))) := by
  have hpos : 0 < s.suggestions.length := List.length_pos.mpr hne
  simp only [moveHighlightMod, hh, jsAdd]
  rw [wrapAround_int _ _ hne (by rcases hdelta with rfl | rfl <;> omega)]

/-- C3: on a non-empty list of `n` suggestions and for `delta` in `{-1, +1}`,
`moveHighlight` sets `highlighted` to `0` (`delta = +1`) or `n - 1` (`delta = -1`) when
it was `null`, and to `(highlighted + delta) mod n`, a value of `[0, n)`, when it was an
index of the list; it wraps from `n - 1` to `0` and from `0` to `n - 1`; `suggestions`
and `selected` are unchanged. -/
theorem moveHighlightMod_spec (s : State) (delta : Int) (hne : s.suggestions ≠ [])
    (hdelta : delta = 1 ∨ delta = -1) :
    (s.highlighted = none →
      (moveHighlightMod delta s).highlighted
        = some (.int (if delta = 1 then 0 else (s.suggestions.length : Int) - 1)))
    ∧ (∀ h : Int, s.highlighted = some (.int h) → 0 ≤ h → h < s.suggestions.length →
        (moveHighlightMod delta s).highlighted
          = some (.int ((h + delta) % (s.suggestions.length : Int)))
        ∧ 0 ≤ (h + delta) % (s.suggestions.length : Int)
        ∧ (h + delta) % (s.suggestions.length : Int) < s.suggestions.length)
    ∧ (s.highlighted = some (.int ((s.suggestions.length : Int) - 1)) →
        (moveHighlightMod 1 s).highlighted = some (.int 0))
    ∧ (s.highlighted = some (.int 0) →
        (moveHighlightMod (-1) s).highlighted
          = some (.int ((s.suggestions.length : Int) - 1)))
    ∧ (moveHighlightMod delta s).suggestions = s.suggestions
    ∧ (moveHighlightMod delta s).selected = s.selected := by
  have hpos : 0 < s.suggestions.length := List.length_pos.mpr hne
  have hn0 : (s.suggestions.length : Int) ≠ 0 := by omega
  refine ⟨moveHighlightMod_of_none s delta hne hdelta, ?_, ?_, ?_, rfl, rfl⟩
  · intro h hh h0 _
    exact ⟨moveHighlightMod_of_index s delta h hne hdelta hh h0,
      Int.emod_nonneg _ hn0, Int.emod_lt_of_pos _ (by omega)⟩
  · intro hh
    rw [moveHighlightMod_of_index s 1 _ hne (Or.inl rfl) hh (by omega)]
    simp
  · intro hh
    rw [moveHighlightMod_of_index s (-1) _ hne (Or.inr rfl) hh (by omega)]
    rw [← Int.add_emod_self, Int.emod_eq_of_lt (by omega) (by omega)]
    have hsum : (0 : Int) + -1 + s.suggestions.length = s.suggestions.length - 1 := by omega
    rw [hsum]

/-- C3 at the three lists of the specification: over three suggestions, `null` and
`+1` give `0`, `null` and `-1` give `2`, and `2` and `+1` give `0`. -/
theorem moveHighlightMod_spec_witness :
    (moveHighlightMod 1 ⟨["A", "B", "C"], none, none⟩).highlighted = some (.int 0)
    ∧ (moveHighlightMod (-1) ⟨["A", "B", "C"], none, none⟩).highlighted = some (.int 2)
    ∧ (moveHighlightMod 1 ⟨["A", "B", "C"], some (.int 2), none⟩).highlighted
        = some (.int 0) :=
  ⟨(moveHighlightMod_spec ⟨["A", "B", "C"], none, none⟩ 1 (by decide) (by decide)).1 rfl,
   (moveHighlightMod_spec ⟨["A", "B", "C"], none, none⟩ (-1) (by decide) (by decide)).1 rfl,
   (moveHighlightMod_spec ⟨["A", "B", "C"], some (.int 2), none⟩ 1 (by decide)
      (by decide)).2.2.1 rfl⟩

/-- C8: `quit` returns a state whose `suggestions` is the empty list and whose
`highlighted` and `selected` are those of its argument. -/
theorem hideMod_spec (s : State) :
    (hideMod s).suggestions = []
    ∧ (hideMod s).highlighted = s.highlighted
    ∧ (hideMod s).selected = s.selected :=
  ⟨rfl, rfl, rfl⟩

/-- C10: on the empty list of suggestions `moveHighlight` is not the identity: from
the initial state and `delta = +1` it stores `NaN`, the value of `(0 + 0) % 0`, in
`highlighted`, and it does so from every state with no suggestions. -/
theorem moveHighlightMod_empty_nan :
    moveHighlightMod 1 (freshState []) = ⟨[], some .nan, none⟩
    ∧ moveHighlightMod 1 (freshState []) ≠ freshState []
    ∧ ∀ (delta : Int) (highlighted : Option JSNum) (selected : Option JSVal),
        (moveHighlightMod delta ⟨[], highlighted, selected⟩).highlighted = some .nan := by
  refine ⟨by decide, by decide, ?_⟩
  intro delta highlighted selected
  cases highlighted <;> simp [moveHighlightMod, wrapAround_nil]

/-- C4: one `selectHighlighted` action is two consecutive updates. The first returns
`{selected: suggestions[highlighted], suggestions: []}` with `highlighted` unchanged
when `highlighted` is not `null` and `suggestions` is not empty (the array read gives
the element when `highlighted` is an index), and otherwise the state with only
`selected` set to `null`; the second sets `selected` to `null` and changes nothing
else, whatever the state. -/
theorem selectHighlighted_spec (s : State) :
    modificationsOf .selectHighlighted = [.selectHighlighted true, .selectHighlighted false]
    ∧ (s.highlighted ≠ none → s.suggestions ≠ [] →
        selectHighlightedMod true s
          = { suggestions := [], highlighted := s.highlighted,
              selected := some (jsIndex s.suggestions s.highlighted) })
    ∧ (∀ (i : Nat) (hi : i < s.suggestions.length), s.highlighted = some (.int i) →
        selectHighlightedMod true s
          = { suggestions := [], highlighted := s.highlighted,
              selected := some (.str (s.suggestions.get ⟨i, hi⟩)) })
    ∧ (¬ (s.highlighted ≠ none ∧ s.suggestions ≠ []) →
        selectHighlightedMod true s = { s with selected := none })
    ∧ (∀ t : State, selectHighlightedMod false t = { t with selected := none })
    ∧ scanFrom s (modificationsOf .selectHighlighted)
        = [selectHighlightedMod true s,
           { selectHighlightedMod true s with selected := none }] := by
  refine ⟨rfl, ?_, ?_, ?_, ?_, ?_⟩
  · intro hh hne
    have hlen : s.suggestions.length ≠ 0 := fun h => hne (List.length_eq_zero.mp h)
    simp [selectHighlightedMod, hh, hlen]
  · intro i hi hh
    have hlen : s.suggestions.length ≠ 0 := by omega
    simp [selectHighlightedMod, hh, hlen, jsIndex, List.getElem?_eq_getElem hi]
  · intro hnot
    by_cases hh : s.highlighted = none
    · simp [selectHighlightedMod, hh]
    · have hnil : s.suggestions = [] := by
        by_contra hne
        exact hnot ⟨hh, hne⟩
      simp [selectHighlightedMod, hnil]
  · intro t
    simp [selectHighlightedMod]
  · simp [scanFrom, modificationsOf, Mod.apply, selectHighlightedMod]

/-- C4 at the state of the specification: with `highlighted = 1` over
`["A", "B", "C"]` the first update gives `{suggestions: [], selected: "B"}` and the
second `{suggestions: [], selected: null}`. -/
theorem selectHighlighted_spec_witness :
    selectHighlightedMod true ⟨["A", "B", "C"], some (.int 1), none⟩
      = ⟨[], some (.int 1), some (.str "B")⟩
    ∧ selectHighlightedMod false ⟨[], some (.int 1), some (.str "B")⟩
      = ⟨[], some (.int 1), none⟩ :=
  ⟨(selectHighlighted_spec ⟨["A", "B", "C"], some (.int 1), none⟩).2.2.1 1 (by decide) rfl,
   (selectHighlighted_spec ⟨["A", "B", "C"], some (.int 1), none⟩).2.2.2.2.1 _⟩

/-! ## Invariants of the state stream -/

theorem modelFrom_invariant (P : State → Prop) (hfresh : ∀ L, P (freshState L))
    (hmod : ∀ (m : Mod) (s : State), P s → P (m.apply s)) :
    ∀ (evs : List ModelEv) (latest : Option Bool) (acc : State), P acc →
      ∀ s ∈ modelFrom latest acc evs, P s := by
  intro evs
  induction evs with
  | nil => intro latest acc _ s hs; simp [modelFrom] at hs
  | cons ev evs ih =>
    intro latest acc hacc s hs
    cases ev with
    | wantsSuggestions accepted => exact ih _ _ hacc s (by simpa [modelFrom] using hs)
    | suggestionsFromResponse L =>
      cases latest with
      | none => exact ih _ _ hacc s (by simpa [modelFrom] using hs)
      | some accepted =>
        simp only [modelFrom, List.mem_cons] at hs
        rcases hs with rfl | hs
        · exact hfresh _
        · exact ih _ _ (hfresh _) s hs
    | mod m =>
      simp only [modelFrom, List.mem_cons] at hs
      rcases hs with rfl | hs
      · exact hmod m acc hacc
      · exact ih _ _ (hmod m acc hacc) s hs

theorem modelFrom_invariant_admissible (P : State → Prop) (hfresh : ∀ L, P (freshState L))
    (hmod : ∀ (m : Mod) (s : State), m.admissible s = true → P s → P (m.apply s)) :
    ∀ (evs : List ModelEv) (latest : Option Bool) (acc : State),
      admissibleFrom latest acc evs = true → P acc →
      ∀ s ∈ modelFrom latest acc evs, P s := by
  intro evs
  induction evs with
  | nil => intro latest acc _ _ s hs; simp [modelFrom] at hs
  | cons ev evs ih =>
    intro latest acc hadm hacc s hs
    cases ev with
    | wantsSuggestions accepted =>
      exact ih _ _ (by simpa [admissibleFrom] using hadm) hacc s
        (by simpa [modelFrom] using hs)
    | suggestionsFromResponse L =>
      cases latest with
      | none =>
        exact ih _ _ (by simpa [admissibleFrom] using hadm) hacc s
          (by simpa [modelFrom] using hs)
      | some accepted =>
        simp only [modelFrom, List.mem_cons] at hs
        simp only [admissibleFrom] at hadm
        rcases hs with rfl | hs
        · exact hfresh _
        · exact ih _ _ hadm (hfresh _) s hs
    | mod m =>
      simp only [modelFrom, List.mem_cons] at hs
      simp only [admissibleFrom, Bool.and_eq_true] at hadm
      rcases hs with rfl | hs
      · exact hmod m acc hadm.1 hacc
      · exact ih _ _ hadm.2 (hmod m acc hadm.1 hacc) s hs

theorem selected_inv_apply (m : Mod) (s : State)
    (h : s.selected ≠ none → s.suggestions = []) :
    (m.apply s).selected ≠ none → (m.apply s).suggestions = [] := by
  cases m with
  | moveHighlight delta => exact h
  | setHighlight highlighted => exact h
  | selectHighlighted selected =>
    simp only [Mod.apply, selectHighlightedMod]
    split
    · intro _; rfl
    · intro hsel; exact absurd rfl hsel
  | hide => intro _; rfl

theorem highlighted_inv_apply (m : Mod) (s : State) (hadm : m.admissible s = true)
    (h : s.suggestions ≠ [] → HighlightedInRange s) :
    (m.apply s).suggestions ≠ [] → HighlightedInRange (m.apply s) := by
  cases m with
  | moveHighlight delta =>
    intro hne
    have hne' : s.suggestions ≠ [] := hne
    have hdelta : delta = 1 ∨ delta = -1 := by simpa [Mod.admissible] using hadm
    have hpos : 0 < s.suggestions.length := List.length_pos.mpr hne'
    have hn0 : (s.suggestions.length : Int) ≠ 0 := by omega
    right
    rcases h hne' with hnone | ⟨i, hi, h0, _⟩
    · refine ⟨_, moveHighlightMod_of_none s delta hne' hdelta hnone, ?_⟩
      show 0 ≤ _ ∧ _ < (s.suggestions.length : Int)
      split <;> omega
    · exact ⟨_, moveHighlightMod_of_index s delta i hne' hdelta hi h0,
        Int.emod_nonneg _ hn0, Int.emod_lt_of_pos _ (by omega)⟩
  | setHighlight highlighted =>
    intro _
    cases highlighted with
    | nan => simp [Mod.admissible] at hadm
    | int i =>
      simp only [Mod.admissible, Bool.and_eq_true, decide_eq_true_eq] at hadm
      exact Or.inr ⟨i, rfl, hadm.1, hadm.2⟩
  | selectHighlighted selected =>
    simp only [Mod.apply, selectHighlightedMod]
    split
    · intro hne; exact absurd rfl hne
    · intro hne; exact h hne
  | hide => intro hne; exact absurd rfl hne

/-- C1, as it holds: in every snapshot of a trace whose modifications are admissible
(`moveHighlight` with `-1` or `+1`, `setHighlight(i)` with `i` an index of the
suggestions of the state it is applied to), if `suggestions` is not empty then
`highlighted` is `null` or an integer with `0 <= highlighted < length(suggestions)`. -/
theorem highlighted_in_range_of_nonempty (evs : List ModelEv)
    (hadm : admissible evs = true) (s : State) (hs : s ∈ model evs)
    (hne : s.suggestions ≠ []) : HighlightedInRange s := by
  have hinit : (freshState []).suggestions ≠ [] → HighlightedInRange (freshState []) :=
    fun _ => Or.inl rfl
  simp only [model, List.mem_cons] at hs
  rcases hs with rfl | hs
  · exact hinit hne
  · exact modelFrom_invariant_admissible (fun s => s.suggestions ≠ [] → HighlightedInRange s)
      (fun _ _ => Or.inl rfl) highlighted_inv_apply evs none (freshState []) hadm hinit s hs hne

/-- C1 on a trace: after three suggestions, Down, Down and a hover over the first
item, `highlighted` is `0`, an index of the list. -/
theorem highlighted_in_range_of_nonempty_witness :
    HighlightedInRange ⟨["A", "B", "C"], some (.int 0), none⟩ :=
  highlighted_in_range_of_nonempty
    [.wantsSuggestions true, .suggestionsFromResponse ["A", "B", "C"],
     .mod (.moveHighlight 1), .mod (.moveHighlight 1), .mod (.setHighlight (.int 0))]
    (by decide) ⟨["A", "B", "C"], some (.int 0), none⟩ (by decide) (by decide)

/-- C1 as stated fails: after one suggestion, Down and `quit`, the snapshot has
`highlighted = 0` and no suggestions, so `highlighted` is not below the length; and
`setHighlight(5)` on the initial state gives `highlighted = 5` with no suggestions. -/
theorem highlighted_in_range_counterexample :
    ((⟨[], some (.int 0), none⟩ : State) ∈
        model [.wantsSuggestions true, .suggestionsFromResponse ["A"],
               .mod (.moveHighlight 1), .mod .hide]
      ∧ ¬ HighlightedInRange ⟨[], some (.int 0), none⟩)
    ∧ ((⟨[], some (.int 5), none⟩ : State) ∈ model [.mod (.setHighlight (.int 5))]
      ∧ ¬ HighlightedInRange ⟨[], some (.int 5), none⟩) := by
  refine ⟨⟨by decide, ?_⟩, ⟨by decide, ?_⟩⟩
  · rintro (h | ⟨i, hi, h0, hlt⟩)
    · exact absurd h (by decide)
    · simp at hlt; omega
  · rintro (h | ⟨i, hi, h0, hlt⟩)
    · exact absurd h (by decide)
    · simp at hlt; omega

/-- C2: in every snapshot of every trace, if `selected` is not `null` then
`suggestions` is the empty list. -/
theorem selected_implies_no_suggestions (evs : List ModelEv) (s : State)
    (hs : s ∈ model evs) (hsel : s.selected ≠ none) : s.suggestions = [] := by
  simp only [model, List.mem_cons] at hs
  rcases hs with rfl | hs
  · rfl
  · exact modelFrom_invariant (fun s => s.selected ≠ none → s.suggestions = [])
      (fun _ h => absurd rfl h) selected_inv_apply evs none (freshState [])
      (fun h => absurd rfl h) s hs hsel

/-- C2 on a trace: the snapshot right after the first update of a selection has
`selected = "B"` and no suggestions. -/
theorem selected_implies_no_suggestions_witness :
    (⟨[], some (.int 1), some (.str "B")⟩ : State).suggestions = [] :=
  selected_implies_no_suggestions
    [.wantsSuggestions true, .suggestionsFromResponse ["A", "B", "C"],
     .mod (.setHighlight (.int 1)), .mod (.selectHighlighted true)]
    ⟨[], some (.int 1), some (.str "B")⟩ (by decide) (by decide)

/-! ## Epochs of the state stream -/

theorem modelFrom_eq_scanFrom (post : List ModelEv)
    (hpost : ∀ ev ∈ post, ∀ L, ev ≠ .suggestionsFromResponse L) :
    ∀ (latest : Option Bool) (acc : State),
      modelFrom latest acc post = scanFrom acc (modsOf post) := by
  induction post with
  | nil => intro latest acc; rfl
  | cons ev post ih =>
    have ih' := ih (fun ev hev => hpost ev (List.mem_cons_of_mem _ hev))
    intro latest acc
    cases ev with
    | wantsSuggestions accepted => simp [modelFrom, modsOf, ih']
    | suggestionsFromResponse L => exact absurd rfl (hpost _ (List.mem_cons_self _ _) L)
    | mod m => simp [modelFrom, modsOf, scanFrom, ih']

theorem modelFrom_after_wants (p2 post : List ModelEv) (accepted : Bool) (L : List String)
    (hp2 : ∀ ev ∈ p2, ∀ b, ev ≠ .wantsSuggestions b)
    (hpost : ∀ ev ∈ post, ∀ L', ev ≠ .suggestionsFromResponse L') :
    ∀ acc : State,
      modelFrom (some accepted) acc (p2 ++ .suggestionsFromResponse L :: post)
        = modelFrom (some accepted) acc p2
          ++ freshState (if accepted then L else [])
            :: scanFrom (freshState (if accepted then L else [])) (modsOf post) := by
  induction p2 with
  | nil =>
    intro acc
    simp [modelFrom, modelFrom_eq_scanFrom post hpost]
  | cons ev p2 ih =>
    have ih' := ih (fun ev hev => hp2 ev (List.mem_cons_of_mem _ hev))
    intro acc
    cases ev with
    | wantsSuggestions b => exact absurd rfl (hp2 _ (List.mem_cons_self _ _) b)
    | suggestionsFromResponse L' => simp [modelFrom, ih']
    | mod m => simp [modelFrom, ih']

/-- C6: the snapshot produced by a suggestion list `L` that arrives when the most
recent value of `wantsSuggestions$` is `accepted` is
`{suggestions: accepted ? L : [], highlighted: null, selected: null}`, whatever came
before; the modifications that arrive after it, up to the next suggestion list, are
applied in arrival order starting from this state. -/
theorem model_suggestions_fresh (p1 p2 post : List ModelEv) (accepted : Bool)
    (L : List String)
    (hp2 : ∀ ev ∈ p2, ∀ b, ev ≠ .wantsSuggestions b)
    (hpost : ∀ ev ∈ post, ∀ L', ev ≠ .suggestionsFromResponse L') :
    model (p1 ++ (.wantsSuggestions accepted :: p2) ++ (.suggestionsFromResponse L :: post))
      = model (p1 ++ (.wantsSuggestions accepted :: p2))
        ++ freshState (if accepted then L else [])
          :: scanFrom (freshState (if accepted then L else [])) (modsOf post) := by
  have key : ∀ (latest : Option Bool) (acc : State),
      modelFrom latest acc
          (p1 ++ (.wantsSuggestions accepted :: p2) ++ (.suggestionsFromResponse L :: post))
        = modelFrom latest acc (p1 ++ (.wantsSuggestions accepted :: p2))
          ++ freshState (if accepted then L else [])
            :: scanFrom (freshState (if accepted then L else [])) (modsOf post) := by
    induction p1 with
    | nil =>
      intro latest acc
      simpa [modelFrom] using modelFrom_after_wants p2 post accepted L hp2 hpost acc
    | cons ev p1 ih =>
      intro latest acc
      cases ev with
      | wantsSuggestions b => simpa [modelFrom] using ih (some b) acc
      | suggestionsFromResponse L' =>
        cases latest with
        | none => simpa [modelFrom] using ih none acc
        | some b => simpa [modelFrom] using ih (some b) _
      | mod m => simpa [modelFrom] using ih latest _
  simp only [model, List.cons_append]
  rw [key]

/-- C6 on a trace: a list that arrives after a highlight and a blur gives the empty
fresh state, and the Down key that follows is applied to that state. -/
theorem model_suggestions_fresh_witness :
    model [.wantsSuggestions true, .suggestionsFromResponse ["A"], .mod (.moveHighlight 1),
           .wantsSuggestions false, .mod (.setHighlight (.int 0)),
           .suggestionsFromResponse ["B", "C"], .mod (.moveHighlight 1)]
      = model [.wantsSuggestions true, .suggestionsFromResponse ["A"],
               .mod (.moveHighlight 1), .wantsSuggestions false,
               .mod (.setHighlight (.int 0))]
        ++ [freshState [], moveHighlightMod 1 (freshState [])] :=
  model_suggestions_fresh
    [.wantsSuggestions true, .suggestionsFromResponse ["A"], .mod (.moveHighlight 1)]
    [.mod (.setHighlight (.int 0))] [.mod (.moveHighlight 1)] false ["B", "C"]
    (by simp) (by simp)

/-! ## Suppressed events -/

theorem preventedEventsFrom_keys {ε : Type} (ks : List (PreventEv ε)) (s : State) (e : ε)
    (hks : ∀ k ∈ ks, ∀ s', k ≠ .state s') :
    preventedEventsFrom (some s) (ks ++ [.keepFocusOnInput e])
      = preventedEventsFrom (some s) ks
        ++ (match preventedSelector e s with
            | some ev => [ev]
            | none => []) := by
  induction ks with
  | nil => cases h : preventedSelector e s <;> simp [preventedEventsFrom, h]
  | cons k ks ih =>
    have ih' := ih (fun k hk => hks k (List.mem_cons_of_mem _ hk))
    cases k with
    | state s' => exact absurd rfl (hks _ (List.mem_cons_self _ _) s')
    | keepFocusOnInput e' =>
      cases h : preventedSelector e' s <;> simp [preventedEventsFrom, h, ih']

theorem preventedSelector_eq {ε : Type} (e : ε) (s : State) :
    (match preventedSelector e s with
      | some ev => [ev]
      | none => [])
      = if s.suggestions ≠ [] ∧ s.highlighted ≠ none then [e] else [] := by
  unfold preventedSelector
  by_cases hne : s.suggestions = []
  · simp [hne]
  · have hlen : 0 < s.suggestions.length := List.length_pos.mpr hne
    by_cases hh : s.highlighted = none
    · simp [hh]
    · simp [hne, hh, hlen]

/-- C5: for an event `e` of `keepFocusOnInput$` that occurs when the latest snapshot is
`s`, `preventedEvents` emits exactly when `s.suggestions` is not empty and
`s.highlighted` is not `null`, and what it emits is `e` itself. -/
theorem preventedEvents_spec {ε : Type} (pre ks : List (PreventEv ε)) (s : State) (e : ε)
    (hks : ∀ k ∈ ks, ∀ s', k ≠ .state s') :
    preventedEvents (pre ++ (.state s :: ks) ++ [.keepFocusOnInput e])
      = preventedEvents (pre ++ (.state s :: ks))
        ++ (if s.suggestions ≠ [] ∧ s.highlighted ≠ none then [e] else []) := by
  have key : ∀ latest : Option State,
      preventedEventsFrom latest (pre ++ (.state s :: ks) ++ [.keepFocusOnInput e])
        = preventedEventsFrom latest (pre ++ (.state s :: ks))
          ++ (if s.suggestions ≠ [] ∧ s.highlighted ≠ none then [e] else []) := by
    induction pre with
    | nil =>
      intro latest
      show preventedEventsFrom latest (.state s :: (ks ++ [.keepFocusOnInput e]))
        = preventedEventsFrom latest (.state s :: ks) ++ _
      simp only [preventedEventsFrom]
      rw [preventedEventsFrom_keys ks s e hks, preventedSelector_eq]
    | cons ev pre ih =>
      intro latest
      cases ev with
      | state s' => simpa [preventedEventsFrom] using ih (some s')
      | keepFocusOnInput e' =>
        cases latest with
        | none => simpa [preventedEventsFrom] using ih none
        | some s' =>
          cases h : preventedSelector e' s' with
          | none => simpa [preventedEventsFrom, h] using ih (some s')
          | some ev => simpa [preventedEventsFrom, h] using ih (some s')
  exact key none

/-- C5 on traces: Enter (event `13`) with no suggestions is not emitted, Enter with
suggestions and `highlighted = null` is not emitted, and Enter with suggestions and a
highlight is emitted as the event itself. -/
theorem preventedEvents_spec_witness :
    preventedEvents [PreventEv.state ⟨[], some (.int 0), none⟩, .keepFocusOnInput 13] = []
    ∧ preventedEvents [PreventEv.state ⟨["A"], none, none⟩, .keepFocusOnInput 13] = []
    ∧ preventedEvents [PreventEv.state ⟨["A"], some (.int 0), none⟩, .keepFocusOnInput 13]
        = [13] :=
  ⟨preventedEvents_spec [] [] ⟨[], some (.int 0), none⟩ 13 (by simp),
   preventedEvents_spec [] [] ⟨["A"], none, none⟩ 13 (by simp),
   preventedEvents_spec [] [] ⟨["A"], some (.int 0), none⟩ 13 (by simp)⟩

/-! ## Responses -/

theorem filterStreams_append {β : Type} (xs ys : List (JsonpEv β)) :
    filterStreams (xs ++ ys) = filterStreams xs ++ filterStreams ys := by
  induction xs with
  | nil => rfl
  | cons ev xs ih =>
    cases ev with
    | stream id request =>
      by_cases h : indexOfIsZero request BASE_URL = true <;> simp [filterStreams, h, ih]
    | response id res => simp [filterStreams, ih]

theorem latestStream_append {β : Type} (xs ys : List (JsonpEv β)) :
    ∀ current : Option Nat,
      latestStream current (xs ++ ys) = latestStream (latestStream current xs) ys := by
  induction xs with
  | nil => intro current; rfl
  | cons ev xs ih =>
    intro current
    cases ev with
    | stream id request =>
      by_cases h : indexOfIsZero request BASE_URL = true <;> simp [latestStream, h, ih]
    | response id res => simp [latestStream, ih]

theorem latestStream_of_no_match {β : Type} (p2 : List (JsonpEv β))
    (hp2 : ∀ id' request', JsonpEv.stream id' request' ∈ p2 →
      indexOfIsZero request' BASE_URL = false) :
    ∀ current : Option Nat, latestStream current p2 = current := by
  induction p2 with
  | nil => intro current; rfl
  | cons ev p2 ih =>
    have ih' := ih (fun id' request' h => hp2 id' request' (List.mem_cons_of_mem _ h))
    intro current
    cases ev with
    | stream id request =>
      have h := hp2 id request (List.mem_cons_self _ _)
      simp [latestStream, h, ih']
    | response id res => simp [latestStream, ih']

theorem switchFrom_response {β : Type} (pre : List (JsonpEv β)) (id : Nat) (res : List β) :
    ∀ current : Option Nat,
      switchFrom current (filterStreams (pre ++ [.response id res]))
        = switchFrom current (filterStreams pre)
          ++ (if latestStream current pre = some id then [res] else []) := by
  induction pre with
  | nil => intro current; simp [filterStreams, switchFrom, latestStream]
  | cons ev pre ih =>
    intro current
    cases ev with
    | stream id' request =>
      by_cases h : indexOfIsZero request BASE_URL = true
      · simpa [filterStreams, switchFrom, latestStream, h] using ih (some id')
      · simpa [filterStreams, switchFrom, latestStream, h] using ih current
    | response id' res' =>
      by_cases h : current = some id'
      · simpa [filterStreams, switchFrom, latestStream, h] using ih (some id')
      · simpa [filterStreams, switchFrom, latestStream, h] using ih current

theorem indexOfIsZero_iff_startsWith (url base : String) :
    indexOfIsZero url base = true ↔ StartsWith url base := by
  unfold indexOfIsZero StartsWith
  rw [List.isPrefixOf_iff_prefix]
  constructor
  · rintro ⟨t, ht⟩
    exact ⟨⟨t⟩, String.ext (by simp [String.data_append, ht])⟩
  · rintro ⟨rest, rfl⟩
    exact ⟨rest.data, by simp [String.data_append]⟩

theorem indexOfIsZero_eq_false_iff (url base : String) :
    indexOfIsZero url base = false ↔ ¬ StartsWith url base := by
  rw [← indexOfIsZero_iff_startsWith]
  simp

theorem latestStream_iff_isLatestRequest {β : Type} (pre : List (JsonpEv β)) (id : Nat) :
    latestStream none pre = some id ↔ IsLatestRequest pre id := by
  constructor
  · induction pre using List.reverseRecOn with
    | nil => intro h; simp [latestStream] at h
    | append_singleton pre ev ih =>
      intro h
      rw [latestStream_append] at h
      cases ev with
      | stream id' request =>
        by_cases hm : indexOfIsZero request BASE_URL = true
        · simp only [latestStream, hm, if_true, Option.some.injEq] at h
          subst h
          exact ⟨pre, request, [], rfl, (indexOfIsZero_iff_startsWith _ _).mp hm, by simp⟩
        · simp only [latestStream, hm] at h
          obtain ⟨p1, request', p2, hpre, hreq, hp2⟩ := ih h
          refine ⟨p1, request', p2 ++ [.stream id' request], by simp [hpre], hreq, ?_⟩
          intro i r hmem
          rcases List.mem_append.mp hmem with hmem | hmem
          · exact hp2 i r hmem
          · simp only [List.mem_singleton, JsonpEv.stream.injEq] at hmem
            obtain ⟨_, rfl⟩ := hmem
            exact fun hs => hm ((indexOfIsZero_iff_startsWith _ _).mpr hs)
      | response id' res =>
        simp only [latestStream] at h
        obtain ⟨p1, request', p2, hpre, hreq, hp2⟩ := ih h
        refine ⟨p1, request', p2 ++ [.response id' res], by simp [hpre], hreq, ?_⟩
        intro i r hmem
        rcases List.mem_append.mp hmem with hmem | hmem
        · exact hp2 i r hmem
        · simp at hmem
  · rintro ⟨p1, request, p2, rfl, hreq, hp2⟩
    rw [latestStream_append]
    simp only [latestStream, (indexOfIsZero_iff_startsWith _ _).mpr hreq, if_true]
    exact latestStream_of_no_match p2
      (fun i r hmem => (indexOfIsZero_eq_false_iff _ _).mpr (hp2 i r hmem)) _

theorem latestStream_mem {β : Type} (p : List (JsonpEv β)) (j : Nat) :
    ∀ current : Option Nat, latestStream current p = some j →
      current = some j
        ∨ ∃ request, JsonpEv.stream j request ∈ p ∧ indexOfIsZero request BASE_URL = true := by
  induction p with
  | nil => intro current h; exact Or.inl h
  | cons ev p ih =>
    intro current h
    cases ev with
    | stream id request =>
      by_cases hm : indexOfIsZero request BASE_URL = true
      · simp only [latestStream, hm, if_true] at h
        rcases ih _ h with hc | ⟨r, hr, hrm⟩
        · simp only [Option.some.injEq] at hc
          subst hc
          exact Or.inr ⟨request, List.mem_cons_self _ _, hm⟩
        · exact Or.inr ⟨r, List.mem_cons_of_mem _ hr, hrm⟩
      · simp only [latestStream, hm] at h
        rcases ih _ h with hc | ⟨r, hr, hrm⟩
        · exact Or.inl hc
        · exact Or.inr ⟨r, List.mem_cons_of_mem _ hr, hrm⟩
    | response id res =>
      simp only [latestStream] at h
      rcases ih _ h with hc | ⟨r, hr, hrm⟩
      · exact Or.inl hc
      · exact Or.inr ⟨r, List.mem_cons_of_mem _ hr, hrm⟩

theorem processResponses_response {β : Type} (pre : List (JsonpEv β)) (id : Nat)
    (res : List β) :
    processResponses (pre ++ [.response id res])
      = processResponses pre
        ++ (if latestStream none pre = some id then [res.get? 1] else []) := by
  unfold processResponses
  rw [switchFrom_response]
  by_cases h : latestStream none pre = some id <;> simp [h]

theorem switchFrom_snoc_stream {β : Type} (xs : List (JsonpEv β)) (id : Nat)
    (request : String) :
    ∀ current : Option Nat,
      switchFrom current (xs ++ [.stream id request]) = switchFrom current xs := by
  induction xs with
  | nil => intro current; simp [switchFrom]
  | cons ev xs ih =>
    intro current
    cases ev with
    | stream id' request' => simpa [switchFrom] using ih (some id')
    | response id' res =>
      by_cases h : current = some id' <;> simp [switchFrom, h, ih]

theorem processResponses_stream {β : Type} (pre : List (JsonpEv β)) (id : Nat)
    (request : String) :
    processResponses (pre ++ [.stream id request]) = processResponses pre := by
  unfold processResponses
  rw [filterStreams_append]
  by_cases h : indexOfIsZero request BASE_URL = true
  · simp only [filterStreams, h, if_true]
    rw [switchFrom_snoc_stream]
  · simp [filterStreams, h]

theorem processResponses_sound {β : Type} (tr : List (JsonpEv β)) :
    ∀ v ∈ processResponses tr,
      ∃ (pre : List (JsonpEv β)) (id : Nat) (res : List β) (post : List (JsonpEv β)),
        tr = pre ++ (.response id res :: post) ∧ IsLatestRequest pre id
        ∧ v = res.get? 1 := by
  induction tr using List.reverseRecOn with
  | nil => intro v hv; simp [processResponses, filterStreams, switchFrom] at hv
  | append_singleton tr ev ih =>
    intro v hv
    cases ev with
    | stream id request =>
      rw [processResponses_stream] at hv
      obtain ⟨pre, i, res, post, htr, hlatest, hv'⟩ := ih v hv
      exact ⟨pre, i, res, post ++ [.stream id request], by simp [htr], hlatest, hv'⟩
    | response id res =>
      rw [processResponses_response] at hv
      rcases List.mem_append.mp hv with hv | hv
      · obtain ⟨pre, i, res', post, htr, hlatest, hv'⟩ := ih v hv
        exact ⟨pre, i, res', post ++ [.response id res], by simp [htr], hlatest, hv'⟩
      · by_cases hl : latestStream none tr = some id
        · rw [if_pos hl, List.mem_singleton] at hv
          exact ⟨tr, id, res, [], rfl, (latestStream_iff_isLatestRequest tr id).mp hl, hv⟩
        · rw [if_neg hl] at hv
          exact absurd hv (List.not_mem_nil _)

/-- C7: `processResponses` emits nothing on the empty trace and nothing when a
request is issued; when a response of the stream `id` arrives after the trace `pre`,
it emits the second element `res[1]` if the stream belongs to the most recently issued
request whose URL starts with `BASE_URL`, and nothing otherwise. So nothing is emitted
for a request superseded by a later request with such a URL, nor for a request whose
URL does not start with `BASE_URL`, and every value ever emitted is the `res[1]` of a
response that belonged, when it arrived, to the most recent such request. -/
theorem processResponses_latest_wins {β : Type} (pre : List (JsonpEv β)) (id : Nat)
    (res : List β) :
    (IsLatestRequest pre id →
      processResponses (pre ++ [.response id res]) = processResponses pre ++ [res.get? 1])
    ∧ (¬ IsLatestRequest pre id →
      processResponses (pre ++ [.response id res]) = processResponses pre)
    ∧ (∀ (p1 : List (JsonpEv β)) (id' : Nat) (request' : String) (p2 : List (JsonpEv β)),
        pre = p1 ++ (.stream id' request' :: p2) →
        StartsWith request' BASE_URL → id' ≠ id →
        (∀ request, JsonpEv.stream id request ∉ p2) →
        processResponses (pre ++ [.response id res]) = processResponses pre)
    ∧ ((∀ request, JsonpEv.stream id request ∈ pre → ¬ StartsWith request BASE_URL) →
        processResponses (pre ++ [.response id res]) = processResponses pre)
    ∧ (∀ request : String,
        processResponses (pre ++ [.stream id request]) = processResponses pre)
    ∧ processResponses ([] : List (JsonpEv β)) = []
    ∧ (∀ v ∈ processResponses pre,
        ∃ (p : List (JsonpEv β)) (i : Nat) (r : List β) (post : List (JsonpEv β)),
          pre = p ++ (.response i r :: post) ∧ IsLatestRequest p i ∧ v = r.get? 1) := by
  refine ⟨?_, ?_, ?_, ?_, processResponses_stream pre id, rfl, processResponses_sound pre⟩
  · intro h
    rw [processResponses_response, if_pos ((latestStream_iff_isLatestRequest pre id).mpr h)]
  · intro h
    rw [processResponses_response,
      if_neg (fun hl => h ((latestStream_iff_isLatestRequest pre id).mp hl))]
    simp
  · intro p1 id' request' p2 hpre hm hid hp2
    rw [processResponses_response, if_neg, List.append_nil]
    intro hl
    rw [hpre, latestStream_append] at hl
    simp only [latestStream, (indexOfIsZero_iff_startsWith _ _).mpr hm, if_true] at hl
    rcases latestStream_mem p2 id _ hl with hc | ⟨r, hr, _⟩
    · simp only [Option.some.injEq] at hc
      exact hid hc
    · exact hp2 r hr
  · intro hforeign
    rw [processResponses_response, if_neg, List.append_nil]
    intro hl
    rcases latestStream_mem pre id _ hl with hc | ⟨r, hr, hrm⟩
    · simp at hc
    · exact hforeign r hr ((indexOfIsZero_iff_startsWith _ _).mp hrm)

/-- C7 on the traces of the specification. After the request for `a` and then the
request for `ab`, the response to `a` emits nothing and the response to `ab` emits its
items. After the request for `a` and then a request to another endpoint, the response
to the other endpoint emits nothing, and the response to `a` still emits its items. -/
theorem processResponses_latest_wins_witness :
    (processResponses
        ([.stream 0 (BASE_URL ++ "a"), .stream 1 (BASE_URL ++ "ab")]
          ++ [.response 0 [BodyElem.text "a", .list ["apple"]]])
      = processResponses [.stream 0 (BASE_URL ++ "a"), .stream 1 (BASE_URL ++ "ab")]
    ∧ processResponses
        ([.stream 0 (BASE_URL ++ "a"), .stream 1 (BASE_URL ++ "ab")]
          ++ [.response 1 [BodyElem.text "ab", .list ["abacus"]]])
      = processResponses [.stream 0 (BASE_URL ++ "a"), .stream 1 (BASE_URL ++ "ab")]
        ++ [some (.list ["abacus"])])
    ∧ (processResponses
        ([.stream 0 (BASE_URL ++ "a"), .stream 2 "https://example.org/?search=a"]
          ++ [.response 2 [BodyElem.text "a", .list ["other"]]])
      = processResponses
          [.stream 0 (BASE_URL ++ "a"), .stream 2 "https://example.org/?search=a"]
    ∧ processResponses
        ([.stream 0 (BASE_URL ++ "a"), .stream 2 "https://example.org/?search=a"]
          ++ [.response 0 [BodyElem.text "a", .list ["apple"]]])
      = processResponses
          [.stream 0 (BASE_URL ++ "a"), .stream 2 "https://example.org/?search=a"]
        ++ [some (.list ["apple"])]) :=
  ⟨⟨(processResponses_latest_wins
      [.stream 0 (BASE_URL ++ "a"), .stream 1 (BASE_URL ++ "ab")] 0
      [BodyElem.text "a", .list ["apple"]]).2.2.1
      [.stream 0 (BASE_URL ++ "a")] 1 (BASE_URL ++ "ab") [] rfl ⟨"ab", rfl⟩ (by decide)
      (by simp),
    (processResponses_latest_wins
      [.stream 0 (BASE_URL ++ "a"), .stream 1 (BASE_URL ++ "ab")] 1
      [BodyElem.text "ab", .list ["abacus"]]).1
      ⟨[.stream 0 (BASE_URL ++ "a")], BASE_URL ++ "ab", [], rfl, ⟨"ab", rfl⟩, by simp⟩⟩,
   ⟨(processResponses_latest_wins
      [.stream 0 (BASE_URL ++ "a"), .stream 2 "https://example.org/?search=a"] 2
      [BodyElem.text "a", .list ["other"]]).2.2.2.1 (by
        intro request hmem
        simp only [List.mem_cons, JsonpEv.stream.injEq, List.mem_singleton, List.mem_nil_iff,
          or_false] at hmem
        rcases hmem with ⟨h, _⟩ | ⟨_, rfl⟩
        · exact absurd h (by decide)
        · exact (indexOfIsZero_eq_false_iff _ _).mp (by decide)),
    (processResponses_latest_wins
      [.stream 0 (BASE_URL ++ "a"), .stream 2 "https://example.org/?search=a"] 0
      [BodyElem.text "a", .list ["apple"]]).1
      ⟨[], BASE_URL ++ "a", [.stream 2 "https://example.org/?search=a"], rfl, ⟨"a", rfl⟩, by
        intro i r hmem
        simp only [List.mem_singleton, JsonpEv.stream.injEq] at hmem
        obtain ⟨_, rfl⟩ := hmem
        exact (indexOfIsZero_eq_false_iff _ _).mp (by decide)⟩⟩⟩

/-! ## Windowing -/

theorem switchWindows_closed {α : Type} (ws : List Nat) (rest : List (WindowEv α)) :
    ∀ current : Option Nat,
      switchWindows current (ws.map .closed ++ rest)
        = switchWindows (if currentOpen current ws then none else current) rest := by
  induction ws with
  | nil => intro current; cases current <;> simp [currentOpen]
  | cons w ws ih =>
    intro current
    by_cases h : current = some w
    · subst h
      simp [switchWindows, currentOpen, ih]
    · cases current with
      | none => simp [switchWindows, currentOpen, ih]
      | some c =>
        have hc : c ≠ w := fun hcw => h (by rw [hcw])
        simp [switchWindows, currentOpen, ih, hc]

theorem switchWindows_items {α : Type} (a : α) (ws : List Nat) (rest : List (WindowEv α))
    (hnodup : ws.Nodup) (current : Option Nat) :
    switchWindows current (ws.map (fun id => .item id a) ++ rest)
      = (if currentOpen current ws then [a] else []) ++ switchWindows current rest := by
  induction ws with
  | nil => cases current <;> simp [currentOpen]
  | cons w ws ih =>
    have hw : w ∉ ws := (List.nodup_cons.mp hnodup).1
    have ih' := ih (List.nodup_cons.mp hnodup).2
    by_cases h : current = some w
    · subst h
      rw [List.map_cons, List.cons_append]
      simp only [switchWindows, if_true]
      rw [ih']
      simp [currentOpen, hw]
    · cases current with
      | none => simpa [switchWindows, currentOpen] using ih'
      | some c =>
        have hc : c ≠ w := fun hcw => h (by rw [hcw])
        simpa [switchWindows, currentOpen, hc] using ih'

theorem switchWindows_windowFrom_snoc {α : Type} (pre : List (WinEv α)) (ev : WinEv α) :
    ∀ (n : Nat) (ws : List Nat) (current : Option Nat), ws.Nodup → (∀ id ∈ ws, id < n) →
      switchWindows current (windowFrom n ws (pre ++ [ev]))
        = switchWindows current (windowFrom n ws pre)
          ++ (match ev with
              | .source e => if inWindowFrom (currentOpen current ws) pre then [e] else []
              | .first => []
              | .second => []) := by
  induction pre with
  | nil =>
    intro n ws current hnodup _
    cases ev with
    | source e =>
      simpa [windowFrom, switchWindows, inWindowFrom] using
        switchWindows_items e ws [] hnodup current
    | first => simp [windowFrom, switchWindows]
    | second =>
      have h := @switchWindows_closed α ws [] current
      simp only [List.append_nil] at h
      simp [windowFrom, switchWindows, h]
  | cons x pre ih =>
    intro n ws current hnodup hlt
    cases x with
    | source a =>
      have h := ih n ws current hnodup hlt
      rw [List.cons_append]
      simp only [windowFrom, switchWindows_items _ _ _ hnodup, h,
        inWindowFrom, List.append_assoc]
    | first =>
      have hnodup' : (ws ++ [n]).Nodup := by
        rw [List.nodup_append]
        refine ⟨hnodup, List.nodup_singleton n, ?_⟩
        intro a ha hn
        simp only [List.mem_singleton] at hn
        subst hn
        exact absurd (hlt a ha) (Nat.lt_irrefl _)
      have hlt' : ∀ id ∈ ws ++ [n], id < n + 1 := by
        intro id hid
        rcases List.mem_append.mp hid with h | h
        · exact Nat.lt_succ_of_lt (hlt id h)
        · simp only [List.mem_singleton] at h
          omega
      have h := ih (n + 1) (ws ++ [n]) (some n) hnodup' hlt'
      have hopen : currentOpen (some n) (ws ++ [n]) = true := by simp [currentOpen]
      rw [hopen] at h
      simpa [windowFrom, switchWindows, inWindowFrom] using h
    | second =>
      have h := ih n [] (if currentOpen current ws then none else current)
        List.nodup_nil (by simp)
      have hclosed : currentOpen (if currentOpen current ws then none else current) []
          = false := by
        cases hc : (if currentOpen current ws = true then none else current) <;>
          simp [currentOpen]
      rw [hclosed] at h
      rw [List.cons_append]
      simp only [windowFrom, switchWindows_closed, inWindowFrom]
      exact h

theorem notBetweenFrom_snoc {α : Type} (pre : List (WinEv α)) (ev : WinEv α) :
    ∀ (stopped : Bool) (inner : Option Bool) (b : Bool),
      (stopped = false ∧ inner = none ∧ b = false) ∨ (stopped = true ∧ inner = some (!b)) →
      notBetweenFrom stopped inner (pre ++ [ev])
        = notBetweenFrom stopped inner pre
          ++ (match ev with
              | .source e => if inWindowFrom b pre then [] else [e]
              | .first => []
              | .second => []) := by
  induction pre with
  | nil =>
    intro stopped inner b hR
    rcases hR with ⟨rfl, rfl, rfl⟩ | ⟨rfl, rfl⟩
    · cases ev <;> simp [notBetweenFrom, takeUntilStep, skipLatestStep, inWindowFrom]
    · cases ev <;> cases b <;>
        simp [notBetweenFrom, takeUntilStep, skipLatestStep, inWindowFrom]
  | cons x pre ih =>
    intro stopped inner b hR
    cases x with
    | source a =>
      rw [List.cons_append]
      simp only [notBetweenFrom, takeUntilStep, skipLatestStep,
        inWindowFrom, ih stopped inner b hR, List.append_assoc]
    | first =>
      rw [List.cons_append]
      simp only [notBetweenFrom, takeUntilStep, skipLatestStep,
        inWindowFrom, ih true (some false) true (Or.inr ⟨rfl, rfl⟩), List.nil_append]
    | second =>
      have hR' : (stopped = false ∧ inner.map (fun _ => true) = none ∧ false = false)
          ∨ (stopped = true ∧ inner.map (fun _ => true) = some (!false)) := by
        rcases hR with ⟨h1, h2, _⟩ | ⟨h1, h2⟩
        · exact Or.inl ⟨h1, by simp [h2], rfl⟩
        · exact Or.inr ⟨h1, by simp [h2]⟩
      rw [List.cons_append]
      simp only [notBetweenFrom, takeUntilStep, skipLatestStep,
        inWindowFrom, ih stopped (inner.map (fun _ => true)) false hR', List.nil_append]

theorem inWindowFrom_append {α : Type} (xs ys : List (WinEv α)) :
    ∀ b : Bool, inWindowFrom b (xs ++ ys) = inWindowFrom (inWindowFrom b xs) ys := by
  induction xs with
  | nil => intro b; rfl
  | cons x xs ih => intro b; cases x <;> simp [inWindowFrom, ih]

theorem inWindowFrom_of_no_second {α : Type} (p2 : List (WinEv α))
    (hp2 : ∀ ev ∈ p2, ev ≠ .second) : inWindowFrom true p2 = true := by
  induction p2 with
  | nil => rfl
  | cons x p2 ih =>
    have ih' := ih (fun ev hev => hp2 ev (List.mem_cons_of_mem _ hev))
    cases x with
    | source a => simpa [inWindowFrom] using ih'
    | first => simpa [inWindowFrom] using ih'
    | second => exact absurd rfl (hp2 _ (List.mem_cons_self _ _))

theorem inWindowFrom_iff_inWindow {α : Type} (pre : List (WinEv α)) :
    inWindowFrom false pre = true ↔ InWindow pre := by
  constructor
  · induction pre using List.reverseRecOn with
    | nil => intro h; simp [inWindowFrom] at h
    | append_singleton pre ev ih =>
      intro h
      rw [inWindowFrom_append] at h
      cases ev with
      | source a =>
        obtain ⟨p1, p2, hpre, hp2⟩ := ih (by simpa [inWindowFrom] using h)
        refine ⟨p1, p2 ++ [.source a], by simp [hpre], ?_⟩
        intro ev hev
        rcases List.mem_append.mp hev with hev | hev
        · exact hp2 ev hev
        · simp only [List.mem_singleton] at hev
          subst hev
          exact fun hne => WinEv.noConfusion hne
      | first => exact ⟨pre, [], rfl, by simp⟩
      | second => simp [inWindowFrom] at h
  · rintro ⟨p1, p2, rfl, hp2⟩
    rw [inWindowFrom_append]
    simpa [inWindowFrom] using inWindowFrom_of_no_second p2 hp2

/-- C9: a source event that occurs after the trace `pre` is emitted by
`source.between(first, second)` exactly when some `first` precedes it with no `second`
in between, and by `source.notBetween(first, second)` exactly when it is not emitted by
`between`; each stream emits it once, and neither emits anything for a marker. -/
theorem between_notBetween_spec {α : Type} (pre : List (WinEv α)) (e : α) :
    (InWindow pre →
      between (pre ++ [.source e]) = between pre ++ [e]
      ∧ notBetween (pre ++ [.source e]) = notBetween pre)
    ∧ (¬ InWindow pre →
      between (pre ++ [.source e]) = between pre
      ∧ notBetween (pre ++ [.source e]) = notBetween pre ++ [e])
    ∧ between (pre ++ [.first]) = between pre
    ∧ between (pre ++ [.second]) = between pre
    ∧ notBetween (pre ++ [.first]) = notBetween pre
    ∧ notBetween (pre ++ [.second]) = notBetween pre := by
  have hb := fun ev => switchWindows_windowFrom_snoc pre ev 0 [] none List.nodup_nil
    (by simp)
  have hn := fun ev => notBetweenFrom_snoc pre ev false none false
    (Or.inl ⟨rfl, rfl, rfl⟩)
  have hopen : currentOpen none [] = false := rfl
  refine ⟨?_, ?_, ?_, ?_, ?_, ?_⟩
  · intro hin
    have hflag := (inWindowFrom_iff_inWindow pre).mpr hin
    constructor
    · have h := hb (.source e)
      simp only [hopen, hflag, if_true] at h
      exact h
    · have h := hn (.source e)
      simp only [hflag, if_true, List.append_nil] at h
      exact h
  · intro hout
    have hflag : inWindowFrom false pre = false := by
      cases hf : inWindowFrom false pre
      · rfl
      · exact absurd ((inWindowFrom_iff_inWindow pre).mp hf) hout
    constructor
    · have h := hb (.source e)
      simp only [hopen, hflag, Bool.false_eq_true, if_false, List.append_nil] at h
      exact h
    · have h := hn (.source e)
      simp only [hflag, Bool.false_eq_true, if_false] at h
      exact h
  · simpa using hb .first
  · simpa using hb .second
  · simpa using hn .first
  · simpa using hn .second

/-- C9 on two traces: a blur after a mousedown is emitted by `between` only, and a blur
after a mousedown and a mouseup is emitted by `notBetween` only. -/
theorem between_notBetween_spec_witness :
    (between ([WinEv.first] ++ [.source "blur"]) = between [WinEv.first] ++ ["blur"]
      ∧ notBetween ([WinEv.first] ++ [.source "blur"]) = notBetween [WinEv.first])
    ∧ (between ([WinEv.first, .second] ++ [.source "blur"]) = between [.first, .second]
      ∧ notBetween ([WinEv.first, .second] ++ [.source "blur"])
          = notBetween [.first, .second] ++ ["blur"]) :=
  ⟨(between_notBetween_spec [WinEv.first] "blur").1 ⟨[], [], rfl, by simp⟩,
   (between_notBetween_spec [WinEv.first, .second] "blur").2.1 (by
      rintro ⟨p1, p2, hpre, hp2⟩
      match p1, hpre with
      | [], hpre =>
        simp only [List.nil_append, List.cons.injEq, true_and] at hpre
        exact hp2 .second (by simp [← hpre]) rfl
      | [_], hpre => simp at hpre
      | _ :: _ :: p1, hpre => simp at hpre)⟩

end Autocomplete
